import Mathlib

/-!
# Stress-test dispatcher: `pkg/runrequests.go`

A shallow embedding of `doRequest`, `do` and `reportGenerate`, together with the
two methods of Go's `time.Duration` that `reportGenerate` calls
(`Round` and `String`).

* Go `int` status codes are `Int`; the counters of `reportGenerate` are `Nat`
  (each is bounded by `len(status_codes)`, so no 64-bit overflow can occur).
* `time.Duration` is an `int64` count of nanoseconds: an `Int` in
  `[-2^63, 2^63)`, with wrap-around made explicit where the Go code relies on it.
* `map[string]int` is an association list with Go's assignment semantics.
-/

namespace StressTest

/-! ## `time.Duration` (Go standard library, package `time`) -/

/-- A `time.Duration`: signed 64-bit nanosecond count. The functions below take it as the
`Int` it is. -/
abbrev Duration := Int

/-- The constant `time.Second`, in nanoseconds. -/
def Second : Int := 1000000000

/-- The constant `time.Millisecond`, in nanoseconds. -/
def Millisecond : Int := 1000000

/-- The constant `time.Microsecond`, in nanoseconds. -/
def Microsecond : Int := 1000

/-- The constant `minDuration` of package `time`: `-1 << 63`. -/
def minDuration : Int := -9223372036854775808

/-- The constant `maxDuration` of package `time`: `1<<63 - 1`. -/
def maxDuration : Int := 9223372036854775807

/-- Membership in the range of `int64`. -/
def isInt64 (d : Int) : Prop := minDuration ≤ d ∧ d ≤ maxDuration

instance (d : Int) : Decidable (isInt64 d) := by
  unfold isInt64; exact inferInstance

/-- Two's-complement wrap of an integer result into `int64`. -/
def wrap64 (x : Int) : Int := (x + 9223372036854775808) % 18446744073709551616 - 9223372036854775808

/-- The conversion `uint64(x)` of an `int64`. -/
def toUint64 (x : Int) : Nat := (x % 18446744073709551616).toNat

/-- Go's `lessThanHalf(x, y)`: `uint64(x)+uint64(x) < uint64(y)`. -/
def lessThanHalf (x y : Int) : Bool :=
  decide ((toUint64 x + toUint64 x) % 18446744073709551616 < toUint64 y)

/-- Go's `func (d Duration) Round(m Duration) Duration`. The remainder `d % m` is Go's
truncated remainder (`Int.tmod`); sums are wrapped to `int64` as the machine does, which is
what the overflow tests `d1 < d` and `d1 > d` rely on. -/
def Duration.Round (d m : Int) : Int :=
  if m ≤ 0 then d
  else
    let r := Int.tmod d m
    if d < 0 then
      let r := wrap64 (-r)
      if lessThanHalf r m then wrap64 (d + r)
      else
        let d1 := wrap64 (wrap64 (d - m) + r)
        if d1 < d then d1 else minDuration
    else if lessThanHalf r m then wrap64 (d - r)
    else
      let d1 := wrap64 (wrap64 (d + m) - r)
      if d1 > d then d1 else maxDuration

/-- The decimal digit `byte(v%10) + '0'`. -/
def digitChar (v : Nat) : Char := Char.ofNat (v % 10 + 48)

/-- The loop `for v > 0 { w--; buf[w] = byte(v%10) + '0'; v /= 10 }` of `fmtInt`,
writing leftwards in front of `buf`. The fuel bounds the number of digits. -/
def fmtIntLoop : Nat → Nat → List Char → List Char
  | 0, _, buf => buf
  | fuel + 1, v, buf => if v = 0 then buf else fmtIntLoop fuel (v / 10) (digitChar v :: buf)

/-- Go's `fmtInt(buf, v)`: the decimal digits of `v` put in front of `buf`
(a `uint64` has at most 20 digits). -/
def fmtInt (buf : List Char) (v : Nat) : List Char :=
  if v = 0 then '0' :: buf else fmtIntLoop 20 v buf

/-- The loop of `fmtFrac`, run `prec` times: state is `(print, v, buf)`. -/
def fmtFracLoop : Nat → Bool → Nat → List Char → Bool × Nat × List Char
  | 0, print, v, buf => (print, v, buf)
  | prec + 1, print, v, buf =>
    let digit := v % 10
    let print := print || decide (digit ≠ 0)
    let buf := if print then digitChar digit :: buf else buf
    fmtFracLoop prec print (v / 10) buf

/-- Go's `fmtFrac(buf, v, prec)`: the fraction of `v/10**prec` without trailing zeros in
front of `buf` (nothing at all when the fraction is 0), and the value `v/10**prec`. -/
def fmtFrac (buf : List Char) (v : Nat) (prec : Nat) : List Char × Nat :=
  match fmtFracLoop prec false v buf with
  | (print, v, buf) => (if print then '.' :: buf else buf, v)

/-- Go's `func (d Duration) format(buf *[32]byte) int`, returning the bytes written
(the buffer is filled from its end, so each write goes in front). -/
def Duration.format (d : Int) : List Char :=
  let u := toUint64 d
  let neg := decide (d < 0)
  let u := if neg then (18446744073709551616 - u) % 18446744073709551616 else u
  let body : List Char :=
    if u < toUint64 Second then
      if u = 0 then ['0', 's']
      else if u < toUint64 Microsecond then
        let (buf, u) := fmtFrac ['n', 's'] u 0
        fmtInt buf u
      else if u < toUint64 Millisecond then
        let (buf, u) := fmtFrac ['µ', 's'] u 3
        fmtInt buf u
      else
        let (buf, u) := fmtFrac ['m', 's'] u 6
        fmtInt buf u
    else
      let (buf, u) := fmtFrac ['s'] u 9
      let buf := fmtInt buf (u % 60)
      let u := u / 60
      if u > 0 then
        let buf := fmtInt ('m' :: buf) (u % 60)
        let u := u / 60
        if u > 0 then fmtInt ('h' :: buf) u else buf
      else buf
  if neg then '-' :: body else body

/-- Go's `func (d Duration) String() string`. -/
def Duration.String (d : Int) : String := String.mk (Duration.format d)

/-! ## `map[string]int` -/

/-- A Go `map[string]int`, as an association list with distinct keys. -/
abbrev GoMap := List (String × Nat)

/-- The assignment `m[k] = v`: overwrite the entry of `k`, or add one. -/
def GoMap.assign : GoMap → String → Nat → GoMap
  | [], k, v => [(k, v)]
  | (k', v') :: rest, k, v =>
    if k' = k then (k, v) :: rest else (k', v') :: GoMap.assign rest k v

/-- The lookup `v, ok := m[k]`. -/
def GoMap.find? : GoMap → String → Option Nat
  | [], _ => none
  | (k', v') :: rest, k => if k' = k then some v' else GoMap.find? rest k

/-- The set of keys of the map. -/
def GoMap.keys (m : GoMap) : List String := m.map Prod.fst

/-! ## `reportGenerate` -/

/-- The struct `Report`. -/
structure Report where
  TimeSpent : String
  RequestsMade : Nat
  SuccessfulRequests : Nat
  FailedRequests : GoMap
  deriving DecidableEq, Repr

/-- The four counters of the loop of `reportGenerate`. -/
structure Tally where
  sucesso : Nat
  code_3xx : Nat
  code_4xx : Nat
  code_5xx : Nat
  deriving DecidableEq, Repr

/-- One iteration of `for _, code := range status_codes { ... }`. -/
def tallyStep (t : Tally) (code : Int) : Tally :=
  if code = 200 then { t with sucesso := t.sucesso + 1 }
  else
    let t := if code ≥ 300 ∧ code ≤ 399 then { t with code_3xx := t.code_3xx + 1 } else t
    let t := if code ≥ 400 ∧ code ≤ 499 then { t with code_4xx := t.code_4xx + 1 } else t
    let t := if code ≥ 500 ∧ code ≤ 599 then { t with code_5xx := t.code_5xx + 1 } else t
    t

/-- The whole loop of `reportGenerate`, from the zero counters. -/
def tally (status_codes : List Int) : Tally :=
  status_codes.foldl tallyStep ⟨0, 0, 0, 0⟩

/-- The function `reportGenerate(status_codes []int, duration time.Duration) *Report`. -/
def reportGenerate (status_codes : List Int) (duration : Duration) : Report :=
  let r := status_codes.length
  let t := tally status_codes
  let falhas : GoMap := []
  let falhas := falhas.assign "3xx" t.code_3xx
  let falhas := falhas.assign "4xx" t.code_4xx
  let falhas := falhas.assign "5xx" t.code_5xx
  { TimeSpent := Duration.String (Duration.Round duration Second)
    RequestsMade := r
    SuccessfulRequests := t.sucesso
    FailedRequests := falhas }


/-! ## `doRequest` -/

/-- The one field of `http.Response` that the program reads. The zero value
`http.Response{}` has `StatusCode` 0. -/
structure Response where
  StatusCode : Int
  deriving DecidableEq, Repr

/-- A non-nil Go `error`, by cause. -/
inductive GoError where
  | construction
  | transport
  | redirectPolicy
  | deadlineExceeded
  deriving DecidableEq, Repr

/-- What `http.DefaultClient.Do(req)` returns. By the contract of `net/http`, a nil error
comes with a non-nil response, and a non-nil error comes with a nil response unless
`CheckRedirect` failed. -/
inductive ClientDo where
  | response (res : Response)
  | failure (err : GoError)
  | redirectFailure (res : Response) (err : GoError)
  deriving DecidableEq, Repr

/-- The pointer `res` of `res, err := http.DefaultClient.Do(req)`; `none` is nil. -/
def ClientDo.res : ClientDo → Option Response
  | .response res => some res
  | .failure _ => none
  | .redirectFailure res _ => some res

/-- The error `err` of `res, err := http.DefaultClient.Do(req)`; `none` is nil. -/
def ClientDo.err : ClientDo → Option GoError
  | .response _ => none
  | .failure err => some err
  | .redirectFailure _ err => some err

/-- What the outside world does during one call of `doRequest(url)`: whether
`http.NewRequestWithContext` accepts the url, what the client returns, and what
`ctx.Err()` reads once the client has returned. -/
structure Invocation where
  newRequestErr : Option GoError
  clientDo : ClientDo
  ctxErr : Option GoError
  deriving DecidableEq, Repr

/-- The way a Go call ends: it returns a value or it panics. -/
inductive Outcome (α : Type) where
  | returned (a : α)
  | panicked
  deriving DecidableEq, Repr

/-- The dereference `*res` of a `*http.Response`: a nil pointer panics. -/
def deref : Option Response → Outcome Response
  | some res => .returned res
  | none => .panicked

/-- The statement `return *res, err`. -/
def returnDeref (res : Option Response) (err : Option GoError) :
    Outcome (Response × Option GoError) :=
  match deref res with
  | .returned r => .returned (r, err)
  | .panicked => .panicked

/-- The function `doRequest(url string) (http.Response, error)`. -/
def doRequest (w : Invocation) : Outcome (Response × Option GoError) :=
  match w.newRequestErr with
  | some err => .returned (⟨0⟩, some err)
  | none =>
    let res := w.clientDo.res
    let err := w.clientDo.err
    if err ≠ none then returnDeref res err
    else
      let ctx_err := w.ctxErr
      if ctx_err ≠ none then returnDeref res w.ctxErr
      else returnDeref res none

/-- The test `err == nil` on what `doRequest` returned: the call succeeded. -/
def succeeded (w : Invocation) : Bool :=
  match doRequest w with
  | .returned (_, none) => true
  | _ => false

/-! ## `do`

The goroutines of `do` are modelled by interleaving. Each goroutine is at one of four
program points; an event moves one goroutine to its next point. -/

/-- Program points of the goroutine body `func(i int)`:
`waiting` before `semaphore <- struct{}{}`; `running` inside `doRequest(url)`;
`holding` after `doRequest` returned (and, on success, after the append under `mu`),
before the deferred `<-semaphore`; `done` after the deferred calls. -/
inductive Pc where
  | waiting
  | running
  | holding
  | done
  deriving DecidableEq, Repr

/-- One launched goroutine: the world of its `doRequest` call and its program point. -/
structure Goroutine where
  world : Invocation
  pc : Pc
  deriving DecidableEq, Repr

/-- The shared state of `do`: the goroutines, `len(semaphore)`, `codeList`, and whether an
unrecovered panic has ended the process. -/
structure DoState where
  gs : List Goroutine
  semaphore : Nat
  codeList : List Int
  crashed : Bool
  deriving DecidableEq, Repr

/-- A scheduling event: goroutine `i` sends its token, gets the result of `doRequest`
(appending the code when there is no error), or runs its deferred calls. -/
inductive Event where
  | acquire (i : Nat)
  | finish (i : Nat)
  | release (i : Nat)
  deriving DecidableEq, Repr

/-- The state once the loop `for i := 0; i < requests; i++ { wg.Add(1); go func ... }` has
launched its goroutines: the loop body runs `requests` times (not at all when
`requests ≤ 0`). `make(chan struct{}, concurrency)` panics on a negative size. -/
def DoState.init (worlds : Nat → Invocation) (requests concurrency : Int) : DoState :=
  { gs := (List.range requests.toNat).map (fun i => ⟨worlds i, .waiting⟩)
    semaphore := 0
    codeList := []
    crashed := decide (concurrency < 0) }

/-- One event. A send on the channel of capacity `cap` needs `len(semaphore) < cap`.
When `doRequest` panics the deferred calls of the goroutine run and the process ends. -/
def step (cap : Nat) (s : DoState) (e : Event) : Option DoState :=
  if s.crashed then none
  else
    match e with
    | .acquire i =>
      match s.gs[i]? with
      | some g =>
        if g.pc = .waiting ∧ s.semaphore < cap then
          some { s with gs := s.gs.set i { g with pc := .running }, semaphore := s.semaphore + 1 }
        else none
      | none => none
    | .finish i =>
      match s.gs[i]? with
      | some g =>
        if g.pc = .running then
          match doRequest g.world with
          | .panicked =>
            some { s with gs := s.gs.set i { g with pc := .done }
                          semaphore := s.semaphore - 1
                          crashed := true }
          | .returned (_, some _) =>
            some { s with gs := s.gs.set i { g with pc := .holding } }
          | .returned (res, none) =>
            some { s with gs := s.gs.set i { g with pc := .holding }
                          codeList := s.codeList ++ [res.StatusCode] }
        else none
      | none => none
    | .release i =>
      match s.gs[i]? with
      | some g =>
        if g.pc = .holding then
          some { s with gs := s.gs.set i { g with pc := .done }, semaphore := s.semaphore - 1 }
        else none
      | none => none

/-- A run: the events of a schedule, one after the other. -/
def exec (cap : Nat) : DoState → List Event → Option DoState
  | s, [] => some s
  | s, e :: es =>
    match step cap s e with
    | some s' => exec cap s' es
    | none => none

/-- The condition under which `wg.Wait()` returns: every goroutine has called `wg.Done()`
and the process is alive. -/
def DoState.joined (s : DoState) : Bool :=
  !s.crashed && s.gs.all (fun g => decide (g.pc = .done))

/-- The goroutine is inside `doRequest`. -/
def Goroutine.isActive (g : Goroutine) : Bool := decide (g.pc = .running)

/-- The goroutine has sent its token and not yet received one back. -/
def Goroutine.holdsToken (g : Goroutine) : Bool := decide (g.pc = .running ∨ g.pc = .holding)

/-- The goroutine is past `doRequest`, which returned a nil error: its code has been
appended to `codeList`. -/
def Goroutine.hasRecorded (g : Goroutine) : Bool :=
  decide (g.pc = .holding ∨ g.pc = .done) && succeeded g.world

/-- The number of goroutines inside `doRequest`. -/
def DoState.active (s : DoState) : Nat := s.gs.countP Goroutine.isActive

/-- The number of goroutines that have sent their token and not yet received one back. -/
def DoState.holders (s : DoState) : Nat := s.gs.countP Goroutine.holdsToken

/-- The function `do(url, requests, concurrency)` under a schedule: the returned
`codeList` and `error` (always nil), when the schedule runs and ends with `wg.Wait()`
returning. The returned `time.Duration` is wall-clock time and is left out. -/
def do_ (worlds : Nat → Invocation) (requests concurrency : Int) (sched : List Event) :
    Option (List Int × Option GoError) :=
  match exec concurrency.toNat (DoState.init worlds requests concurrency) sched with
  | some s => if s.joined then some (s.codeList, none) else none
  | none => none

/-- The number of events a goroutine at the given program point still has to take. -/
def Pc.remaining : Pc → Nat
  | .waiting => 3
  | .running => 2
  | .holding => 1
  | .done => 0

/-- The number of events a goroutine still has to take. -/
def Goroutine.remaining (g : Goroutine) : Nat := g.pc.remaining

/-- The number of events the goroutines of a state still have to take. -/
def DoState.remaining (s : DoState) : Nat := (s.gs.map Goroutine.remaining).sum

/-! ## Quantities the statements below are about -/

/-- The status class `lo..hi` as a Boolean test. -/
def inRange (lo hi : Int) (code : Int) : Bool := decide (lo ≤ code ∧ code ≤ hi)

/-- The number of the `requests` invocations whose `doRequest` returns a nil error. -/
def successes (worlds : Nat → Invocation) (requests : Int) : Nat :=
  ((List.range requests.toNat).map worlds).countP succeeded

/-- The number of goroutines whose code has been appended to `codeList`. -/
def DoState.recorded (s : DoState) : Nat := s.gs.countP Goroutine.hasRecorded

/-- The invariant of the admission gate: the tokens in the channel are those of the goroutines
between their send and their deferred receive, and never exceed the capacity. -/
def GateInv (cap : Nat) (s : DoState) : Prop :=
  s.semaphore = s.holders ∧ s.semaphore ≤ cap

/-- The codes counted by `reportGenerate` in `sucesso` or in a class bucket: 200 and
300..599. -/
def classified (code : Int) : Bool := decide (code = 200) || inRange 300 599 code

/-- The sum `SuccessfulRequests + FailedRequests["3xx"] + FailedRequests["4xx"] +
FailedRequests["5xx"]` of a report (a missing key reads 0, as in Go). -/
def Report.tallied (r : Report) : Nat :=
  r.SuccessfulRequests + (r.FailedRequests.find? "3xx").getD 0 +
    (r.FailedRequests.find? "4xx").getD 0 + (r.FailedRequests.find? "5xx").getD 0

/-- A world in which the server answers with the given status code in time. -/
def served (code : Int) : Invocation := ⟨none, .response ⟨code⟩, none⟩

/-- A world in which the url is malformed: `http.NewRequestWithContext` fails, the client
is never called. -/
def malformedUrl : Invocation := ⟨some .construction, .failure .transport, none⟩

/-- A world in which the connection is refused: the client returns `(nil, err)`. -/
def connectionRefused : Invocation := ⟨none, .failure .transport, none⟩

/-- A world in which the server answers with a redirect that the client policy refuses: the
client returns a non-nil response together with an error. -/
def redirectRefused : Invocation := ⟨none, .redirectFailure ⟨302⟩ .redirectPolicy, none⟩

/-- The process is alive, the admission gate is consistent, and no goroutine is in a world in
which `doRequest` panics. -/
def Live (cap : Nat) (s : DoState) : Prop :=
  s.crashed = false ∧ GateInv cap s ∧ ∀ g ∈ s.gs, doRequest g.world ≠ .panicked

/-- An assignment of worlds to the invocations of one url: the first is answered with 200,
every later one runs into a refused redirect. -/
def mixedWorlds (i : Nat) : Invocation := if i = 0 then served 200 else redirectRefused

/-! ## Arithmetic of `Round` -/

/-- Go's truncated remainder of a negated dividend. -/
theorem tmod_neg_dividend (a b : Int) : Int.tmod (-a) b = -(Int.tmod a b) := by
  rw [Int.tmod_def, Int.tmod_def, Int.neg_tdiv]; ring

/-- Wrapping leaves an `int64` value alone. -/
theorem wrap64_of_isInt64 (x : Int) (h1 : -9223372036854775808 ≤ x)
    (h2 : x ≤ 9223372036854775807) : wrap64 x = x := by
  unfold wrap64; omega

/-- Wrapping an intermediate sum does not change the wrapped total. -/
theorem wrap64_wrap64_add (a b : Int) : wrap64 (wrap64 a + b) = wrap64 (a + b) := by
  unfold wrap64; omega

/-- On a remainder modulo one second, `lessThanHalf` is the comparison with half a second. -/
theorem lessThanHalf_second (r : Int) (h1 : 0 ≤ r) (h2 : r < 1000000000) :
    lessThanHalf r 1000000000 = decide (r < 500000000) := by
  unfold lessThanHalf toUint64
  congr 1
  apply propext
  omega

/-- Closed form of `Round` to the second on non-negative durations. -/
theorem round_second_nonneg (d : Int) (h0 : 0 ≤ d) (hhi : d < 9223372036500000000) :
    Duration.Round d Second =
      if d % 1000000000 < 500000000 then d - d % 1000000000
      else d + 1000000000 - d % 1000000000 := by
  have h1 : Int.tmod d 1000000000 = d % 1000000000 :=
    Int.tmod_eq_emod h0 (by omega)
  have hr0 : 0 ≤ d % 1000000000 := by omega
  have hr1 : d % 1000000000 < 1000000000 := by omega
  have hx : ¬ d < 0 := by omega
  simp only [Duration.Round, Second, h1, hx, if_false, lessThanHalf_second _ hr0 hr1,
    decide_eq_true_eq, sub_eq_add_neg, wrap64_wrap64_add]
  norm_num
  split_ifs with ha hb
  · rw [wrap64_of_isInt64] <;> omega
  · rw [wrap64_of_isInt64] <;> omega
  · rw [wrap64_of_isInt64] at hb <;> omega

/-- Closed form of `Round` to the second on negative durations. -/
theorem round_second_neg (d : Int) (h0 : d < 0) (hlo : -9223372036500000000 < d) :
    Duration.Round d Second =
      if (-d) % 1000000000 < 500000000 then d + (-d) % 1000000000
      else d - 1000000000 + (-d) % 1000000000 := by
  have h1 : Int.tmod d 1000000000 = -((-d) % 1000000000) := by
    have := tmod_neg_dividend (-d) 1000000000
    rw [neg_neg] at this
    rw [this, Int.tmod_eq_emod (by omega) (by omega)]
  have hr0 : 0 ≤ (-d) % 1000000000 := by omega
  have hr1 : (-d) % 1000000000 < 1000000000 := by omega
  simp only [Duration.Round, Second, h1, h0, if_true, neg_neg,
    wrap64_of_isInt64 _ (by omega : -9223372036854775808 ≤ (-d) % 1000000000) (by omega),
    lessThanHalf_second _ hr0 hr1,
    decide_eq_true_eq, sub_eq_add_neg, wrap64_wrap64_add]
  norm_num
  split_ifs with ha hb
  · rw [wrap64_of_isInt64] <;> omega
  · rw [wrap64_of_isInt64] <;> omega
  · rw [wrap64_of_isInt64] at hb <;> omega

/-- Away from the two ends of `int64`, `Round` to the second gives a whole number of
seconds within half a second of its argument. -/
theorem round_second_spec (d : Int) (hlo : -9223372036500000000 < d)
    (hhi : d < 9223372036500000000) :
    Second ∣ Duration.Round d Second ∧ |Duration.Round d Second - d| ≤ 500000000 := by
  rw [abs_le]
  by_cases hd : d < 0
  · rw [round_second_neg d hd hlo]
    unfold Second
    split_ifs <;> refine ⟨?_, ?_, ?_⟩ <;> omega
  · rw [round_second_nonneg d (by omega) hhi]
    unfold Second
    split_ifs <;> refine ⟨?_, ?_, ?_⟩ <;> omega

/-- Durations strictly within half a second of zero round to zero. -/
theorem round_second_small (d : Int) (hlo : -500000000 < d) (hhi : d < 500000000) :
    Duration.Round d Second = 0 := by
  by_cases hd : d < 0
  · rw [round_second_neg d hd (by omega)]
    split_ifs <;> omega
  · rw [round_second_nonneg d (by omega) (by omega)]
    split_ifs <;> omega

/-! ## The counting loop of `reportGenerate` -/

/-- The loop started from any counters adds, to each counter, the number of codes of its
class. -/
theorem foldl_tallyStep (codes : List Int) (t : Tally) :
    codes.foldl tallyStep t =
      { sucesso := t.sucesso + codes.count 200
        code_3xx := t.code_3xx + codes.countP (inRange 300 399)
        code_4xx := t.code_4xx + codes.countP (inRange 400 499)
        code_5xx := t.code_5xx + codes.countP (inRange 500 599) } := by
  induction codes generalizing t with
  | nil => simp
  | cons c cs ih =>
    rw [List.foldl_cons, ih]
    by_cases h200 : c = 200
    · subst h200
      simp [tallyStep, inRange, List.countP_cons]
      omega
    · have hc : List.count 200 (c :: cs) = List.count 200 cs := by
        rw [List.count_cons]; simp [h200]
      rw [hc]
      simp only [tallyStep, h200, if_false, List.countP_cons, inRange, decide_eq_true_eq, ge_iff_le]
      by_cases h3 : 300 ≤ c ∧ c ≤ 399 <;> by_cases h4 : 400 ≤ c ∧ c ≤ 499 <;>
        by_cases h5 : 500 ≤ c ∧ c ≤ 599 <;>
        simp [h3, h4, h5, Nat.add_assoc, Nat.add_comm]

/-- The counters computed by `reportGenerate`, as counts over the list. -/
theorem tally_eq (codes : List Int) :
    tally codes =
      { sucesso := codes.count 200
        code_3xx := codes.countP (inRange 300 399)
        code_4xx := codes.countP (inRange 400 499)
        code_5xx := codes.countP (inRange 500 599) } := by
  unfold tally
  rw [foldl_tallyStep]
  simp

/-! ## The goroutines of `do` -/

/-- Replacing the `i`-th element moves a count by the two elements involved. -/
theorem countP_set_add {α : Type} (p : α → Bool) (l : List α) (i : Nat) (a b : α)
    (h : l[i]? = some a) :
    (l.set i b).countP p + (if p a then 1 else 0) = l.countP p + (if p b then 1 else 0) := by
  induction l generalizing i with
  | nil => simp at h
  | cons x xs ih =>
    cases i with
    | zero =>
      simp only [List.getElem?_cons_zero, Option.some.injEq] at h
      subst h
      simp only [List.set_cons_zero, List.countP_cons]
      omega
    | succ j =>
      simp only [List.getElem?_cons_succ] at h
      have := ih j h
      simp only [List.set_cons_succ, List.countP_cons]
      omega

/-- Every event moves exactly one goroutine of a live process to its next program point. -/
theorem step_cases {cap : Nat} {s s' : DoState} {e : Event} (h : step cap s e = some s') :
    ∃ i g, s.gs[i]? = some g ∧ s.crashed = false ∧
      ((e = .acquire i ∧ g.pc = .waiting ∧ s.semaphore < cap ∧
          s' = { s with gs := s.gs.set i { g with pc := .running }
                        semaphore := s.semaphore + 1 }) ∨
       (e = .finish i ∧ g.pc = .running ∧ doRequest g.world = .panicked ∧
          s' = { s with gs := s.gs.set i { g with pc := .done }
                        semaphore := s.semaphore - 1
                        crashed := true }) ∨
       (e = .finish i ∧ g.pc = .running ∧
          (∃ res err, doRequest g.world = .returned (res, some err)) ∧
          s' = { s with gs := s.gs.set i { g with pc := .holding } }) ∨
       (e = .finish i ∧ g.pc = .running ∧
          (∃ res, doRequest g.world = .returned (res, none) ∧
            s' = { s with gs := s.gs.set i { g with pc := .holding }
                          codeList := s.codeList ++ [res.StatusCode] })) ∨
       (e = .release i ∧ g.pc = .holding ∧
          s' = { s with gs := s.gs.set i { g with pc := .done }
                        semaphore := s.semaphore - 1 })) := by
  unfold step at h
  by_cases hc : s.crashed = true
  · simp [hc] at h
  · rw [if_neg hc] at h
    have hc' : s.crashed = false := by simpa using hc
    cases e with
    | acquire i =>
      simp only at h
      cases hg : s.gs[i]? with
      | none => simp [hg] at h
      | some g =>
        simp only [hg] at h
        by_cases hp : g.pc = .waiting ∧ s.semaphore < cap
        · rw [if_pos hp] at h
          exact ⟨i, g, hg, hc', Or.inl ⟨rfl, hp.1, hp.2, (Option.some.inj h).symm⟩⟩
        · simp [hp] at h
    | finish i =>
      simp only at h
      cases hg : s.gs[i]? with
      | none => simp [hg] at h
      | some g =>
        simp only [hg] at h
        by_cases hp : g.pc = .running
        · rw [if_pos hp] at h
          cases hr : doRequest g.world with
          | panicked =>
            simp only [hr] at h
            exact ⟨i, g, hg, hc', Or.inr (Or.inl ⟨rfl, hp, hr, (Option.some.inj h).symm⟩)⟩
          | returned a =>
            obtain ⟨res, err⟩ := a
            cases err with
            | some err =>
              simp only [hr] at h
              exact ⟨i, g, hg, hc',
                Or.inr (Or.inr (Or.inl ⟨rfl, hp, ⟨res, err, hr⟩, (Option.some.inj h).symm⟩))⟩
            | none =>
              simp only [hr] at h
              exact ⟨i, g, hg, hc',
                Or.inr (Or.inr (Or.inr (Or.inl ⟨rfl, hp, ⟨res, hr, (Option.some.inj h).symm⟩⟩)))⟩
        · simp [hp] at h
    | release i =>
      simp only at h
      cases hg : s.gs[i]? with
      | none => simp [hg] at h
      | some g =>
        simp only [hg] at h
        by_cases hp : g.pc = .holding
        · rw [if_pos hp] at h
          exact ⟨i, g, hg, hc', Or.inr (Or.inr (Or.inr (Or.inr ⟨rfl, hp, (Option.some.inj h).symm⟩)))⟩
        · simp [hp] at h

/-- One event keeps the invariant of the admission gate. -/
theorem step_gateInv {cap : Nat} {s s' : DoState} {e : Event} (h : step cap s e = some s')
    (hinv : GateInv cap s) : GateInv cap s' := by
  obtain ⟨h1, h2⟩ := hinv
  obtain ⟨i, g, hg, -, hcase⟩ := step_cases h
  have key := fun b => countP_set_add Goroutine.holdsToken s.gs i g b hg
  unfold DoState.holders at h1
  rcases hcase with ⟨-, hpc, hlt, rfl⟩ | ⟨-, hpc, -, rfl⟩ | ⟨-, hpc, -, rfl⟩ |
    ⟨-, hpc, res, -, rfl⟩ | ⟨-, hpc, rfl⟩
  · have := key { g with pc := .running }
    simp [Goroutine.holdsToken, hpc] at this
    refine ⟨?_, ?_⟩ <;> simp only [DoState.holders] <;> omega
  · have := key { g with pc := .done }
    simp [Goroutine.holdsToken, hpc] at this
    refine ⟨?_, ?_⟩ <;> simp only [DoState.holders] <;> omega
  · have := key { g with pc := .holding }
    simp [Goroutine.holdsToken, hpc] at this
    refine ⟨?_, ?_⟩ <;> simp only [DoState.holders] <;> omega
  · have := key { g with pc := .holding }
    simp [Goroutine.holdsToken, hpc] at this
    refine ⟨?_, ?_⟩ <;> simp only [DoState.holders] <;> omega
  · have := key { g with pc := .done }
    simp [Goroutine.holdsToken, hpc] at this
    refine ⟨?_, ?_⟩ <;> simp only [DoState.holders] <;> omega

/-- A run keeps the invariant of the admission gate. -/
theorem exec_gateInv {cap : Nat} (sched : List Event) {s s' : DoState}
    (h : exec cap s sched = some s') (hinv : GateInv cap s) : GateInv cap s' := by
  induction sched generalizing s with
  | nil =>
    simp only [exec, Option.some.injEq] at h
    exact h ▸ hinv
  | cons e es ih =>
    simp only [exec] at h
    cases hs : step cap s e with
    | none => simp [hs] at h
    | some s1 =>
      simp only [hs] at h
      exact ih h (step_gateInv hs hinv)

/-- The launch state satisfies the invariant of the admission gate. -/
theorem init_gateInv (worlds : Nat → Invocation) (requests concurrency : Int) :
    GateInv concurrency.toNat (DoState.init worlds requests concurrency) := by
  refine ⟨?_, Nat.zero_le _⟩
  show 0 = List.countP Goroutine.holdsToken _
  symm
  rw [List.countP_eq_zero]
  intro g hg
  simp only [DoState.init, List.mem_map] at hg
  obtain ⟨i, -, rfl⟩ := hg
  simp [Goroutine.holdsToken]

/-- The goroutines inside `doRequest` are among those that hold a token. -/
theorem active_le_holders (s : DoState) : s.active ≤ s.holders := by
  unfold DoState.active DoState.holders
  apply List.countP_mono_left
  intro g _ hg
  simp only [Goroutine.isActive, Goroutine.holdsToken, decide_eq_true_eq] at hg ⊢
  exact Or.inl hg

/-- One event leaves the worlds of the goroutines as they are, and keeps `codeList` as long
as the number of goroutines that have recorded a code. -/
theorem step_recorded {cap : Nat} {s s' : DoState} {e : Event} (h : step cap s e = some s')
    (hinv : s.codeList.length = s.recorded) :
    s'.codeList.length = s'.recorded ∧ s'.gs.map Goroutine.world = s.gs.map Goroutine.world := by
  obtain ⟨i, g, hg, -, hcase⟩ := step_cases h
  have key := fun b => countP_set_add Goroutine.hasRecorded s.gs i g b hg
  have hworld : ∀ pc, (s.gs.set i { g with pc := pc }).map Goroutine.world =
      s.gs.map Goroutine.world := by
    intro pc
    apply List.ext_getElem?
    intro j
    simp only [List.getElem?_map, List.getElem?_set]
    by_cases hij : i = j
    · subst hij
      simp only [if_true]
      split
      · simp [hg]
      · rename_i hlt
        have := List.getElem?_eq_none (Nat.le_of_not_lt hlt)
        rw [hg] at this
        cases this
    · simp [hij]
  unfold DoState.recorded at hinv ⊢
  rcases hcase with ⟨-, hpc, hlt, rfl⟩ | ⟨-, hpc, hr, rfl⟩ | ⟨-, hpc, ⟨res, err, hr⟩, rfl⟩ |
    ⟨-, hpc, res, hr, rfl⟩ | ⟨-, hpc, rfl⟩
  · have := key { g with pc := .running }
    simp [Goroutine.hasRecorded, hpc] at this
    exact ⟨by simp only; omega, hworld _⟩
  · have := key { g with pc := .done }
    simp [Goroutine.hasRecorded, hpc, succeeded, hr] at this
    exact ⟨by simp only; omega, hworld _⟩
  · have := key { g with pc := .holding }
    simp [Goroutine.hasRecorded, hpc, succeeded, hr] at this
    exact ⟨by simp only; omega, hworld _⟩
  · have := key { g with pc := .holding }
    simp [Goroutine.hasRecorded, hpc, succeeded, hr] at this
    exact ⟨by simp only [List.length_append, List.length_singleton]; omega, hworld _⟩
  · have := key { g with pc := .done }
    simp [Goroutine.hasRecorded, hpc] at this
    refine ⟨?_, hworld _⟩
    simp only
    omega

/-- A run leaves the worlds of the goroutines as they are, and keeps `codeList` as long as
the number of goroutines that have recorded a code. -/
theorem exec_recorded {cap : Nat} (sched : List Event) {s s' : DoState}
    (h : exec cap s sched = some s') (hinv : s.codeList.length = s.recorded) :
    s'.codeList.length = s'.recorded ∧ s'.gs.map Goroutine.world = s.gs.map Goroutine.world := by
  induction sched generalizing s with
  | nil =>
    simp only [exec, Option.some.injEq] at h
    subst h
    exact ⟨hinv, rfl⟩
  | cons e es ih =>
    simp only [exec] at h
    cases hs : step cap s e with
    | none => simp [hs] at h
    | some s1 =>
      simp only [hs] at h
      obtain ⟨h1, h2⟩ := step_recorded hs hinv
      obtain ⟨h3, h4⟩ := ih h h1
      exact ⟨h3, h4.trans h2⟩

/-- When every goroutine is done, those that recorded a code are those that succeeded. -/
theorem countP_hasRecorded_of_done (gs : List Goroutine)
    (h : gs.all (fun g => decide (g.pc = .done)) = true) :
    gs.countP Goroutine.hasRecorded = (gs.map Goroutine.world).countP succeeded := by
  induction gs with
  | nil => rfl
  | cons g gs ih =>
    simp only [List.all_cons, Bool.and_eq_true, decide_eq_true_eq] at h
    simp only [List.map_cons, List.countP_cons, ih h.2, Goroutine.hasRecorded, h.1]
    simp

/-- What `do` returns under any schedule: no error, and one code per invocation that
succeeded. -/
theorem do_length (worlds : Nat → Invocation) (requests concurrency : Int)
    (sched : List Event) (codes : List Int) (err : Option GoError)
    (h : do_ worlds requests concurrency sched = some (codes, err)) :
    codes.length = successes worlds requests ∧ err = none := by
  unfold do_ at h
  cases hs : exec concurrency.toNat (DoState.init worlds requests concurrency) sched with
  | none => simp [hs] at h
  | some s =>
    simp only [hs] at h
    by_cases hj : s.joined = true
    · simp only [hj, if_true, Option.some.injEq, Prod.mk.injEq] at h
      obtain ⟨hcodes, herr⟩ := h
      have hinit : (DoState.init worlds requests concurrency).codeList.length =
          (DoState.init worlds requests concurrency).recorded := by
        simp only [DoState.init, DoState.recorded, List.length_nil]
        symm
        rw [List.countP_eq_zero]
        intro g hg
        simp only [List.mem_map] at hg
        obtain ⟨i, -, rfl⟩ := hg
        simp [Goroutine.hasRecorded]
      obtain ⟨h1, h2⟩ := exec_recorded sched hs hinit
      simp only [DoState.joined, Bool.and_eq_true] at hj
      refine ⟨?_, herr.symm⟩
      rw [← hcodes, h1, DoState.recorded, countP_hasRecorded_of_done _ hj.2, h2]
      simp [DoState.init, successes, Function.comp_def]
    · simp [hj] at h

/-! ## Progress and termination of `do` -/

/-- A run over two schedules in a row. -/
theorem exec_append (cap : Nat) (s : DoState) (es fs : List Event) :
    exec cap s (es ++ fs) = (exec cap s es).bind (fun s1 => exec cap s1 fs) := by
  induction es generalizing s with
  | nil => rfl
  | cons e es ih =>
    simp only [List.cons_append, exec]
    cases step cap s e with
    | none => rfl
    | some s1 => exact ih s1

/-- Replacing the `i`-th element moves a sum by the two elements involved. -/
theorem sum_map_set_add {α : Type} (f : α → Nat) (l : List α) (i : Nat) (a b : α)
    (h : l[i]? = some a) :
    ((l.set i b).map f).sum + f a = (l.map f).sum + f b := by
  induction l generalizing i with
  | nil => simp at h
  | cons x xs ih =>
    cases i with
    | zero =>
      simp only [List.getElem?_cons_zero, Option.some.injEq] at h
      subst h
      simp only [List.set_cons_zero, List.map_cons, List.sum_cons]
      omega
    | succ j =>
      simp only [List.getElem?_cons_succ] at h
      have := ih j h
      simp only [List.set_cons_succ, List.map_cons, List.sum_cons]
      omega

/-- Every event uses up at least one of the remaining events. -/
theorem step_remaining {cap : Nat} {s s1 : DoState} {e : Event}
    (h : step cap s e = some s1) : s1.remaining + 1 ≤ s.remaining := by
  obtain ⟨i, g, hg, -, hcase⟩ := step_cases h
  have key := fun b => sum_map_set_add Goroutine.remaining s.gs i g b hg
  unfold DoState.remaining
  rcases hcase with ⟨-, hpc, -, rfl⟩ | ⟨-, hpc, -, rfl⟩ | ⟨-, hpc, -, rfl⟩ |
    ⟨-, hpc, res, -, rfl⟩ | ⟨-, hpc, rfl⟩
  · have := key { g with pc := .running }
    simp only [Goroutine.remaining, hpc, Pc.remaining] at this
    simp only; omega
  · have := key { g with pc := .done }
    simp only [Goroutine.remaining, hpc, Pc.remaining] at this
    simp only; omega
  · have := key { g with pc := .holding }
    simp only [Goroutine.remaining, hpc, Pc.remaining] at this
    simp only; omega
  · have := key { g with pc := .holding }
    simp only [Goroutine.remaining, hpc, Pc.remaining] at this
    simp only; omega
  · have := key { g with pc := .done }
    simp only [Goroutine.remaining, hpc, Pc.remaining] at this
    simp only; omega

/-- A run is no longer than the remaining events it uses up. -/
theorem exec_remaining {cap : Nat} (sched : List Event) {s s1 : DoState}
    (h : exec cap s sched = some s1) : sched.length + s1.remaining ≤ s.remaining := by
  induction sched generalizing s with
  | nil =>
    simp only [exec, Option.some.injEq] at h
    subst h
    simp
  | cons e es ih =>
    simp only [exec] at h
    cases hs : step cap s e with
    | none => simp [hs] at h
    | some s2 =>
      simp only [hs] at h
      have h1 := step_remaining hs
      have h2 := ih h
      simp only [List.length_cons]
      omega

/-- At launch every goroutine has its three events to take. -/
theorem init_remaining (worlds : Nat → Invocation) (requests concurrency : Int) :
    (DoState.init worlds requests concurrency).remaining = 3 * requests.toNat := by
  have h : ∀ l : List Nat,
      ((l.map (fun i => (⟨worlds i, .waiting⟩ : Goroutine))).map
        Goroutine.remaining).sum = 3 * l.length := by
    intro l
    induction l with
    | nil => rfl
    | cons x xs ih =>
      simp only [List.map_cons, List.sum_cons, List.length_cons, ih, Goroutine.remaining,
        Pc.remaining]
      omega
  simp only [DoState.remaining, DoState.init, h, List.length_range]

/-- One event leaves the worlds of the goroutines as they are. -/
theorem step_worlds {cap : Nat} {s s1 : DoState} {e : Event} (h : step cap s e = some s1) :
    s1.gs.map Goroutine.world = s.gs.map Goroutine.world := by
  obtain ⟨i, g, hg, -, hcase⟩ := step_cases h
  have hworld : ∀ pc, (s.gs.set i { g with pc := pc }).map Goroutine.world =
      s.gs.map Goroutine.world := by
    intro pc
    apply List.ext_getElem?
    intro j
    simp only [List.getElem?_map, List.getElem?_set]
    by_cases hij : i = j
    · subst hij
      simp only [if_true]
      split
      · simp [hg]
      · rename_i hlt
        have := List.getElem?_eq_none (Nat.le_of_not_lt hlt)
        rw [hg] at this
        cases this
    · simp [hij]
  rcases hcase with ⟨-, -, -, rfl⟩ | ⟨-, -, -, rfl⟩ | ⟨-, -, -, rfl⟩ |
    ⟨-, -, res, -, rfl⟩ | ⟨-, -, rfl⟩ <;> exact hworld _

/-- One event keeps a live state live. -/
theorem step_live {cap : Nat} {s s1 : DoState} {e : Event} (h : step cap s e = some s1)
    (hl : Live cap s) : Live cap s1 := by
  obtain ⟨hc, hgate, hw⟩ := hl
  have hw1 : ∀ g ∈ s1.gs, doRequest g.world ≠ .panicked := by
    intro g1 hg1
    have hmem : g1.world ∈ s1.gs.map Goroutine.world := List.mem_map_of_mem _ hg1
    rw [step_worlds h, List.mem_map] at hmem
    obtain ⟨g0, hg0, heq⟩ := hmem
    rw [← heq]
    exact hw g0 hg0
  refine ⟨?_, step_gateInv h hgate, hw1⟩
  obtain ⟨i, g, hg, -, hcase⟩ := step_cases h
  rcases hcase with ⟨-, -, -, rfl⟩ | ⟨-, -, hp, rfl⟩ | ⟨-, -, -, rfl⟩ |
    ⟨-, -, res, -, rfl⟩ | ⟨-, -, rfl⟩
  · exact hc
  · exact absurd hp (hw g (List.getElem?_mem hg))
  · exact hc
  · exact hc
  · exact hc

/-- A run keeps a live state live. -/
theorem exec_live {cap : Nat} (sched : List Event) {s s1 : DoState}
    (h : exec cap s sched = some s1) (hl : Live cap s) : Live cap s1 := by
  induction sched generalizing s with
  | nil =>
    simp only [exec, Option.some.injEq] at h
    exact h ▸ hl
  | cons e es ih =>
    simp only [exec] at h
    cases hs : step cap s e with
    | none => simp [hs] at h
    | some s2 =>
      simp only [hs] at h
      exact ih h (step_live hs hl)

/-- With no negative capacity and no panicking world, the launch state is live. -/
theorem init_live (worlds : Nat → Invocation) (requests concurrency : Int)
    (hw : 1 ≤ concurrency)
    (hret : ∀ i, i < requests.toNat → doRequest (worlds i) ≠ .panicked) :
    Live concurrency.toNat (DoState.init worlds requests concurrency) := by
  refine ⟨?_, init_gateInv worlds requests concurrency, ?_⟩
  · simp only [DoState.init, decide_eq_false_iff_not]; omega
  · intro g hg
    simp only [DoState.init, List.mem_map, List.mem_range] at hg
    obtain ⟨i, hi, rfl⟩ := hg
    exact hret i hi

/-- A goroutine inside `doRequest` can always take its next event. -/
theorem finish_enabled (cap : Nat) {s : DoState} {i : Nat} {g : Goroutine}
    (hc : s.crashed = false) (hg : s.gs[i]? = some g) (hpc : g.pc = .running) :
    ∃ s1, step cap s (.finish i) = some s1 := by
  simp only [step, hc, Bool.false_eq_true, if_false, hg, hpc, if_true]
  cases doRequest g.world with
  | panicked => exact ⟨_, rfl⟩
  | returned a =>
    obtain ⟨res, err⟩ := a
    cases err with
    | some err => exact ⟨_, rfl⟩
    | none => exact ⟨_, rfl⟩

/-- A goroutine past `doRequest` can always run its deferred calls. -/
theorem release_enabled (cap : Nat) {s : DoState} {i : Nat} {g : Goroutine}
    (hc : s.crashed = false) (hg : s.gs[i]? = some g) (hpc : g.pc = .holding) :
    ∃ s1, step cap s (.release i) = some s1 := by
  simp only [step, hc, Bool.false_eq_true, if_false, hg, hpc, if_true]
  exact ⟨_, rfl⟩

/-- A waiting goroutine can send its token when the channel is not full. -/
theorem acquire_enabled {cap : Nat} {s : DoState} {i : Nat} {g : Goroutine}
    (hc : s.crashed = false) (hg : s.gs[i]? = some g) (hpc : g.pc = .waiting)
    (hlt : s.semaphore < cap) :
    ∃ s1, step cap s (.acquire i) = some s1 := by
  simp only [step, hc, Bool.false_eq_true, if_false, hg, hpc, hlt, and_self, if_true]
  exact ⟨_, rfl⟩

/-- Deadlock freedom: with at least one slot, a live state in which `wg.Wait()` cannot yet
return has an event that can be taken. -/
theorem live_progress {cap : Nat} (hcap : 1 ≤ cap) {s : DoState} (hl : Live cap s)
    (hj : s.joined = false) : ∃ e s1, step cap s e = some s1 := by
  obtain ⟨hc, ⟨hsem, -⟩, -⟩ := hl
  have hall : s.gs.all (fun g => decide (g.pc = .done)) = false := by
    simpa [DoState.joined, hc] using hj
  have hex : ∃ g ∈ s.gs, g.pc ≠ .done := by
    by_contra hno
    have : s.gs.all (fun g => decide (g.pc = .done)) = true := by
      rw [List.all_eq_true]
      intro g hg
      simp only [decide_eq_true_eq]
      by_contra hne
      exact hno ⟨g, hg, hne⟩
    rw [this] at hall
    cases hall
  obtain ⟨g, hg, hne⟩ := hex
  obtain ⟨i, hi⟩ := List.mem_iff_getElem?.mp hg
  cases hpc : g.pc with
  | done => exact absurd hpc hne
  | running =>
    obtain ⟨s1, h1⟩ := finish_enabled cap hc hi hpc
    exact ⟨_, s1, h1⟩
  | holding =>
    obtain ⟨s1, h1⟩ := release_enabled cap hc hi hpc
    exact ⟨_, s1, h1⟩
  | waiting =>
    by_cases hlt : s.semaphore < cap
    · obtain ⟨s1, h1⟩ := acquire_enabled hc hi hpc hlt
      exact ⟨_, s1, h1⟩
    · have hpos : 0 < s.gs.countP Goroutine.holdsToken := by
        have : s.semaphore = s.gs.countP Goroutine.holdsToken := hsem
        omega
      obtain ⟨g2, hg2, hh⟩ := List.countP_pos_iff.mp hpos
      obtain ⟨j, hj2⟩ := List.mem_iff_getElem?.mp hg2
      simp only [Goroutine.holdsToken, decide_eq_true_eq] at hh
      rcases hh with hrun | hhold
      · obtain ⟨s1, h1⟩ := finish_enabled cap hc hj2 hrun
        exact ⟨_, s1, h1⟩
      · obtain ⟨s1, h1⟩ := release_enabled cap hc hj2 hhold
        exact ⟨_, s1, h1⟩

/-- With at least one slot, every live state can be run until `wg.Wait()` returns. -/
theorem live_runs_to_end {cap : Nat} (hcap : 1 ≤ cap) (n : Nat) (s : DoState)
    (hl : Live cap s) (hn : s.remaining ≤ n) :
    ∃ rest s1, exec cap s rest = some s1 ∧ s1.joined = true := by
  induction n generalizing s with
  | zero =>
    by_cases hj : s.joined = true
    · exact ⟨[], s, rfl, hj⟩
    · obtain ⟨e, s1, h1⟩ := live_progress hcap hl (by simpa using hj)
      have := step_remaining h1
      omega
  | succ n ih =>
    by_cases hj : s.joined = true
    · exact ⟨[], s, rfl, hj⟩
    · obtain ⟨e, s1, h1⟩ := live_progress hcap hl (by simpa using hj)
      have hrem := step_remaining h1
      obtain ⟨rest, s2, h2, hj2⟩ := ih s1 (step_live h1 hl) (by omega)
      exact ⟨e :: rest, s2, by simp only [exec, h1, h2], hj2⟩

/-! ## The report -/

/-- The four counters add up to the number of classified codes. -/
theorem tally_total (codes : List Int) :
    codes.count 200 + codes.countP (inRange 300 399) + codes.countP (inRange 400 499) +
      codes.countP (inRange 500 599) = codes.countP classified := by
  induction codes with
  | nil => rfl
  | cons c cs ih =>
    simp only [List.count_cons, List.countP_cons, classified, inRange, beq_iff_eq,
      Bool.or_eq_true, decide_eq_true_eq]
    split_ifs <;> omega

/-- The tallied sum of a report is the number of classified codes. -/
theorem reportGenerate_tallied (codes : List Int) (d : Int) :
    (reportGenerate codes d).tallied = codes.countP classified := by
  rw [← tally_total]
  simp [Report.tallied, reportGenerate, tally_eq, GoMap.assign, GoMap.find?]

/-- The map of failures built by `reportGenerate`. -/
theorem reportGenerate_failedRequests (codes : List Int) (d : Int) :
    (reportGenerate codes d).FailedRequests =
      [("3xx", codes.countP (inRange 300 399)), ("4xx", codes.countP (inRange 400 499)),
        ("5xx", codes.countP (inRange 500 599))] := by
  simp [reportGenerate, tally_eq, GoMap.assign]

/-! ## The claims -/

/-- C1, as stated, fails: with `requests = 1` and a malformed url, `doRequest` returns a
construction error, the goroutine logs it and returns, and `do` returns an empty collection,
so the report built from it has `RequestsMade = 0`, not 1. -/
theorem do_drops_failed_invocation :
    doRequest malformedUrl = .returned (⟨0⟩, some .construction) ∧
      do_ (fun _ => malformedUrl) 1 1 [.acquire 0, .finish 0, .release 0] = some ([], none) ∧
      (([] : List Int).length : Int) ≠ 1 ∧
      (reportGenerate [] 0).RequestsMade = 0 := by
  decide

/-- C1, amended: for `requests ≥ 0`, `workers ≥ 1` and every assignment of worlds in which no
`doRequest` call panics, `do` returns: every run has at most `3 * requests` events, every
reachable state in which `wg.Wait()` cannot yet return has an event that can be taken, and
every run can be continued to one on which `do` returns. Under every schedule the returned
collection has exactly one entry per invocation whose `doRequest` returned a nil error,
hence at most `requests` entries; the error is nil, and the report built from the collection
has `RequestsMade` equal to that number of successful invocations and tallies no more than
it. An invocation whose `doRequest` returns an error contributes to nothing. -/
theorem do_collects_successes (worlds : Nat → Invocation) (requests concurrency : Int)
    (hr : 0 ≤ requests) (hw : 1 ≤ concurrency)
    (hret : ∀ i, i < requests.toNat → doRequest (worlds i) ≠ .panicked) :
    (∀ sched s,
        exec concurrency.toNat (DoState.init worlds requests concurrency) sched = some s →
          sched.length ≤ 3 * requests.toNat ∧
          (s.joined = false → ∃ e s1, step concurrency.toNat s e = some s1) ∧
          ∃ rest codes, do_ worlds requests concurrency (sched ++ rest) = some (codes, none)) ∧
      ∀ sched codes err, do_ worlds requests concurrency sched = some (codes, err) →
        err = none ∧ codes.length = successes worlds requests ∧
          (codes.length : Int) ≤ requests ∧
          ∀ d, (reportGenerate codes d).RequestsMade = successes worlds requests ∧
            (reportGenerate codes d).tallied ≤ successes worlds requests := by
  have hcap : 1 ≤ concurrency.toNat := by omega
  refine ⟨?_, ?_⟩
  · intro sched s h
    have hl := exec_live sched h (init_live worlds requests concurrency hw hret)
    have hlen := exec_remaining sched h
    rw [init_remaining] at hlen
    refine ⟨by omega, live_progress hcap hl, ?_⟩
    obtain ⟨rest, s1, h1, hj⟩ := live_runs_to_end hcap s.remaining s hl (Nat.le_refl _)
    refine ⟨rest, s1.codeList, ?_⟩
    have h2 : exec concurrency.toNat (DoState.init worlds requests concurrency)
        (sched ++ rest) = some s1 := by
      rw [exec_append, h]
      exact h1
    simp only [do_, h2, hj, if_true]
  · intro sched codes err h
    obtain ⟨h1, h2⟩ := do_length worlds requests concurrency sched codes err h
    have h3 : successes worlds requests ≤ requests.toNat := by
      unfold successes
      exact (List.countP_le_length _).trans (by simp)
    refine ⟨h2, h1, by omega, ?_⟩
    intro d
    refine ⟨h1, ?_⟩
    rw [reportGenerate_tallied, ← h1]
    exact List.countP_le_length _

/-- Witness of C1 amended: two requests of one url and one worker, the first answered with
200 and the second with a redirect that the client refuses. -/
theorem do_collects_successes_witness :
    (0 : Int) ≤ 2 ∧ (1 : Int) ≤ 1 ∧
      (∀ i, i < (2 : Int).toNat → doRequest (mixedWorlds i) ≠ .panicked) ∧
      (∀ sched s,
        exec (1 : Int).toNat (DoState.init mixedWorlds 2 1) sched = some s →
          sched.length ≤ 3 * (2 : Int).toNat ∧
          (s.joined = false → ∃ e s1, step (1 : Int).toNat s e = some s1) ∧
          ∃ rest codes, do_ mixedWorlds 2 1 (sched ++ rest) = some (codes, none)) ∧
      ∀ sched codes err, do_ mixedWorlds 2 1 sched = some (codes, err) →
        err = none ∧ codes.length = successes mixedWorlds 2 ∧
          (codes.length : Int) ≤ 2 ∧
          ∀ d, (reportGenerate codes d).RequestsMade = successes mixedWorlds 2 ∧
            (reportGenerate codes d).tallied ≤ successes mixedWorlds 2 :=
  have hret : ∀ i, i < (2 : Int).toNat → doRequest (mixedWorlds i) ≠ .panicked := by
    intro i _
    by_cases hi : i = 0
    · simp only [mixedWorlds, hi, if_true]; decide
    · simp only [mixedWorlds, hi, if_false]; decide
  ⟨by decide, by decide, hret,
    do_collects_successes mixedWorlds 2 1 (by decide) (by decide) hret⟩

/-- C2: when the client returns `(nil, err)`, as it does for a refused connection, a DNS
failure or a deadline that elapses during the transfer, `doRequest` reaches `return *res, err`
with `res = nil` and panics instead of returning the failure. -/
theorem doRequest_transport_failure_panics (err : GoError) (ctxErr : Option GoError) :
    doRequest ⟨none, .failure err, ctxErr⟩ = .panicked := by
  cases err <;> rfl

/-- C3: `SuccessfulRequests` is the number of entries equal to 200, and an entry different
from 200 (201 and 204 included) does not change it. -/
theorem reportGenerate_successful (codes : List Int) (d : Int) :
    (reportGenerate codes d).SuccessfulRequests = codes.count 200 ∧
      ∀ c, c ≠ 200 →
        (reportGenerate (codes ++ [c]) d).SuccessfulRequests =
          (reportGenerate codes d).SuccessfulRequests := by
  have h : ∀ l : List Int, (reportGenerate l d).SuccessfulRequests = l.count 200 := by
    intro l
    simp [reportGenerate, tally_eq]
  refine ⟨h codes, ?_⟩
  intro c hc
  rw [h, h, List.count_append]
  simp [List.count_cons, hc]

/-- Witness of C3: a 201 added to the codes 200, 201, 204 leaves `SuccessfulRequests`
unchanged. -/
theorem reportGenerate_successful_witness :
    (201 : Int) ≠ 200 ∧
      (reportGenerate ([200, 201, 204] ++ [201]) 0).SuccessfulRequests =
        (reportGenerate [200, 201, 204] 0).SuccessfulRequests :=
  ⟨by decide, (reportGenerate_successful [200, 201, 204] 0).2 201 (by decide)⟩

/-- C4: `FailedRequests` has exactly the keys "3xx", "4xx" and "5xx", holding the numbers of
entries in 300..399, 400..499 and 500..599; an entry outside 300..599 changes no bucket. -/
theorem reportGenerate_failed (codes : List Int) (d : Int) :
    (reportGenerate codes d).FailedRequests.keys = ["3xx", "4xx", "5xx"] ∧
      (reportGenerate codes d).FailedRequests.find? "3xx" =
        some (codes.countP (inRange 300 399)) ∧
      (reportGenerate codes d).FailedRequests.find? "4xx" =
        some (codes.countP (inRange 400 499)) ∧
      (reportGenerate codes d).FailedRequests.find? "5xx" =
        some (codes.countP (inRange 500 599)) ∧
      ∀ c, (c < 300 ∨ 599 < c) →
        (reportGenerate (codes ++ [c]) d).FailedRequests =
          (reportGenerate codes d).FailedRequests := by
  refine ⟨?_, ?_, ?_, ?_, ?_⟩
  · rw [reportGenerate_failedRequests]; rfl
  · rw [reportGenerate_failedRequests]; rfl
  · rw [reportGenerate_failedRequests]; rfl
  · rw [reportGenerate_failedRequests]; rfl
  · intro c hc
    have h3 : inRange 300 399 c = false := by
      simp only [inRange, decide_eq_false_iff_not]; omega
    have h4 : inRange 400 499 c = false := by
      simp only [inRange, decide_eq_false_iff_not]; omega
    have h5 : inRange 500 599 c = false := by
      simp only [inRange, decide_eq_false_iff_not]; omega
    simp [reportGenerate_failedRequests, List.countP_append, List.countP_cons, h3, h4, h5]

/-- Witness of C4: a 204 added to the codes 301, 404, 503 changes no bucket. -/
theorem reportGenerate_failed_witness :
    ((204 : Int) < 300 ∨ (599 : Int) < 204) ∧
      (reportGenerate ([301, 404, 503] ++ [204]) 0).FailedRequests =
        (reportGenerate [301, 404, 503] 0).FailedRequests :=
  ⟨by decide, (reportGenerate_failed [301, 404, 503] 0).2.2.2.2 204 (by decide)⟩

/-- C5: `RequestsMade` is the length of the list of codes. -/
theorem reportGenerate_requestsMade (codes : List Int) (d : Int) :
    (reportGenerate codes d).RequestsMade = codes.length := rfl

/-- C6: the successes and the three buckets add up to at most `RequestsMade`, and to less
when the list has a code outside 200..599. -/
theorem reportGenerate_tallied_le (codes : List Int) (d : Int) :
    (reportGenerate codes d).SuccessfulRequests +
        ((reportGenerate codes d).FailedRequests.find? "3xx").getD 0 +
        ((reportGenerate codes d).FailedRequests.find? "4xx").getD 0 +
        ((reportGenerate codes d).FailedRequests.find? "5xx").getD 0 ≤
      (reportGenerate codes d).RequestsMade ∧
    ((∃ c ∈ codes, c < 200 ∨ 599 < c) →
      (reportGenerate codes d).SuccessfulRequests +
          ((reportGenerate codes d).FailedRequests.find? "3xx").getD 0 +
          ((reportGenerate codes d).FailedRequests.find? "4xx").getD 0 +
          ((reportGenerate codes d).FailedRequests.find? "5xx").getD 0 <
        (reportGenerate codes d).RequestsMade) := by
  have h := reportGenerate_tallied codes d
  unfold Report.tallied at h
  have hmade : (reportGenerate codes d).RequestsMade = codes.length := rfl
  rw [h, hmade]
  refine ⟨List.countP_le_length _, ?_⟩
  rintro ⟨c, hc, hout⟩
  apply lt_of_le_of_ne (List.countP_le_length _)
  intro heq
  have := (List.countP_eq_length.mp heq) c hc
  simp only [classified, inRange, Bool.or_eq_true, decide_eq_true_eq] at this
  omega

/-- Witness of C6: the codes 200, 404, 100 tally 2 out of 3. -/
theorem reportGenerate_tallied_le_witness :
    (∃ c ∈ [200, 404, 100], c < (200 : Int) ∨ 599 < c) ∧
      (reportGenerate [200, 404, 100] 0).SuccessfulRequests +
          ((reportGenerate [200, 404, 100] 0).FailedRequests.find? "3xx").getD 0 +
          ((reportGenerate [200, 404, 100] 0).FailedRequests.find? "4xx").getD 0 +
          ((reportGenerate [200, 404, 100] 0).FailedRequests.find? "5xx").getD 0 <
        (reportGenerate [200, 404, 100] 0).RequestsMade :=
  ⟨⟨100, by decide, by decide⟩,
    (reportGenerate_tallied_le [200, 404, 100] 0).2 ⟨100, by decide, by decide⟩⟩

/-- C7: two lists of codes that are permutations of one another give equal reports. -/
theorem reportGenerate_perm (codes1 codes2 : List Int) (d : Int)
    (h : codes1.Perm codes2) : reportGenerate codes1 d = reportGenerate codes2 d := by
  simp only [reportGenerate, tally_eq, h.length_eq, h.count_eq, h.countP_eq]

/-- Witness of C7: the codes 200, 404, 503 in two orders. -/
theorem reportGenerate_perm_witness :
    [200, 404, 503].Perm [503, 200, 404] ∧
      reportGenerate [200, 404, 503] 1500000000 = reportGenerate [503, 200, 404] 1500000000 :=
  ⟨by decide, reportGenerate_perm [200, 404, 503] [503, 200, 404] 1500000000 (by decide)⟩

/-- C8: in every state that `do` can reach, the goroutines inside `doRequest` are at most
`workers`; the tokens in the channel are exactly those of the goroutines that have sent one
and have not finished, and are at most `workers`; a send adds one token, and the end of a
goroutine, after a success, after a failure or in a panic, takes exactly one out. -/
theorem semaphore_bounds_active (worlds : Nat → Invocation) (requests concurrency : Int)
    (sched : List Event) (s : DoState) (hw : 1 ≤ concurrency)
    (h : exec concurrency.toNat (DoState.init worlds requests concurrency) sched = some s) :
    (s.active : Int) ≤ concurrency ∧ s.semaphore = s.holders ∧
      (s.semaphore : Int) ≤ concurrency ∧
      ∀ e s1, step concurrency.toNat s e = some s1 →
        match e with
        | .acquire _ => s1.semaphore = s.semaphore + 1
        | .finish _ =>
          if s1.crashed then s.semaphore = s1.semaphore + 1 else s1.semaphore = s.semaphore
        | .release _ => s.semaphore = s1.semaphore + 1 := by
  obtain ⟨h1, h2⟩ := exec_gateInv sched h (init_gateInv worlds requests concurrency)
  have h3 := active_le_holders s
  refine ⟨by omega, h1, by omega, ?_⟩
  intro e s1 hs
  obtain ⟨i, g, hg, hc, hcase⟩ := step_cases hs
  have hpos : g.holdsToken = true → 1 ≤ s.semaphore := by
    intro hp
    rw [h1]
    exact List.countP_pos_iff.mpr ⟨g, List.getElem?_mem hg, hp⟩
  rcases hcase with ⟨rfl, hpc, hlt, rfl⟩ | ⟨rfl, hpc, -, rfl⟩ | ⟨rfl, hpc, -, rfl⟩ |
    ⟨rfl, hpc, res, -, rfl⟩ | ⟨rfl, hpc, rfl⟩
  · rfl
  · have := hpos (by simp [Goroutine.holdsToken, hpc])
    simp only [if_true]
    omega
  · simp [hc]
  · simp [hc]
  · have := hpos (by simp [Goroutine.holdsToken, hpc])
    simp only
    omega

/-- Witness of C8: three requests and two workers, after goroutines 0 and 2 have sent their
tokens. -/
theorem semaphore_bounds_active_witness :
    (1 : Int) ≤ 2 ∧
      exec (2 : Int).toNat (DoState.init (fun _ => served 200) 3 2) [.acquire 0, .acquire 2] =
        some ⟨[⟨served 200, .running⟩, ⟨served 200, .waiting⟩, ⟨served 200, .running⟩],
          2, [], false⟩ ∧
      ((DoState.active
        ⟨[⟨served 200, .running⟩, ⟨served 200, .waiting⟩, ⟨served 200, .running⟩],
          2, [], false⟩ : Nat) : Int) ≤ 2 :=
  ⟨by decide, by decide,
    (semaphore_bounds_active (fun _ => served 200) 3 2 [.acquire 0, .acquire 2]
      ⟨[⟨served 200, .running⟩, ⟨served 200, .waiting⟩, ⟨served 200, .running⟩], 2, [], false⟩
      (by decide) (by decide)).1⟩

/-- C9: with `requests = 0` and `workers ≥ 1`, `do` launches no goroutine and returns the
empty collection and a nil error, under the empty schedule and under any other; and
`reportGenerate` of the empty collection and an elapsed time `d` below half a second
(`0 ≤ d`, as `time.Since(start)` is) is the report with `TimeSpent = "0s"` and every
count 0. -/
theorem do_zero_requests (worlds : Nat → Invocation) (concurrency : Int) (d : Int)
    (hw : 1 ≤ concurrency) (h0 : 0 ≤ d) (hhi : d < 500000000) :
    (DoState.init worlds 0 concurrency).gs = [] ∧
      do_ worlds 0 concurrency [] = some ([], none) ∧
      (∀ sched r, do_ worlds 0 concurrency sched = some r → r = ([], none)) ∧
      reportGenerate [] d = ⟨"0s", 0, 0, [("3xx", 0), ("4xx", 0), ("5xx", 0)]⟩ := by
  have hcrash : decide (concurrency < 0) = false := by
    simp only [decide_eq_false_iff_not]; omega
  refine ⟨rfl, ?_, ?_, ?_⟩
  · simp [do_, exec, DoState.init, DoState.joined, hcrash]
  · rintro sched ⟨codes, err⟩ h
    obtain ⟨h1, h2⟩ := do_length worlds 0 concurrency sched codes err h
    have h3 : successes worlds 0 = 0 := rfl
    rw [h3] at h1
    rw [List.length_eq_zero.mp h1, h2]
  · have hround := round_second_small d (by omega) hhi
    simp only [reportGenerate, hround]
    rfl

/-- Witness of C9: one worker and an elapsed time of 499999999 ns. -/
theorem do_zero_requests_witness :
    (1 : Int) ≤ 1 ∧ (0 : Int) ≤ 499999999 ∧ (499999999 : Int) < 500000000 ∧
      (DoState.init (fun _ => served 200) 0 1).gs = [] ∧
      do_ (fun _ => served 200) 0 1 [] = some ([], none) ∧
      (∀ sched r, do_ (fun _ => served 200) 0 1 sched = some r → r = ([], none)) ∧
      reportGenerate [] 499999999 = ⟨"0s", 0, 0, [("3xx", 0), ("4xx", 0), ("5xx", 0)]⟩ :=
  ⟨by decide, by decide, by decide,
    do_zero_requests (fun _ => served 200) 1 499999999 (by decide) (by decide) (by decide)⟩

/-- C10, as stated, fails: the largest duration is rounded to itself, which is not a whole
number of seconds; `TimeSpent` is then "2562047h47m16.854775807s". No `int64` value at all is
a whole number of seconds within half a second of that duration. -/
theorem reportGenerate_round_saturates :
    isInt64 maxDuration ∧
      Duration.Round maxDuration Second = maxDuration ∧
      ¬ Second ∣ Duration.Round maxDuration Second ∧
      (reportGenerate [] maxDuration).TimeSpent = "2562047h47m16.854775807s" ∧
      ¬ ∃ v : Int, isInt64 v ∧ Second ∣ v ∧ |v - maxDuration| ≤ 500000000 := by
  refine ⟨by decide, by decide, by decide, by decide, ?_⟩
  rintro ⟨v, ⟨-, hmax⟩, hdvd, habs⟩
  rw [abs_le] at habs
  unfold maxDuration at hmax habs
  unfold Second at hdvd
  omega

/-- C10, amended: for a duration `d` strictly between -9223372036.5 s and 9223372036.5 s,
`TimeSpent` is the rendering of `d.Round(time.Second)`, which is a whole number of seconds
and differs from `d` by at most half a second. -/
theorem reportGenerate_timeSpent (codes : List Int) (d : Int)
    (hlo : -9223372036500000000 < d) (hhi : d < 9223372036500000000) :
    (reportGenerate codes d).TimeSpent = Duration.String (Duration.Round d Second) ∧
      Second ∣ Duration.Round d Second ∧ |Duration.Round d Second - d| ≤ 500000000 :=
  ⟨rfl, round_second_spec d hlo hhi⟩

/-- Witness of C10 amended: one and a half seconds is rendered as "2s". -/
theorem reportGenerate_timeSpent_witness :
    (-9223372036500000000 : Int) < 1500000000 ∧ (1500000000 : Int) < 9223372036500000000 ∧
      (reportGenerate [200] 1500000000).TimeSpent =
        Duration.String (Duration.Round 1500000000 Second) ∧
      Second ∣ Duration.Round 1500000000 Second ∧
      |Duration.Round 1500000000 Second - 1500000000| ≤ 500000000 :=
  ⟨by decide, by decide,
    reportGenerate_timeSpent [200] 1500000000 (by decide) (by decide)⟩

end StressTest
